import Mathlib

/-!
# Verification of `artyom/unescape`

A shallow embedding of `src/unescape.go` (the decoder of nginx `\xHH` log
escapes) and theorems about it.

Bytes are natural numbers; a Go `byte` is a natural number below 256, and the
conversions `byte(..)` and the increment of a `byte` are taken modulo 256.
A `[]byte` is a `List Nat`; Go's `nil` slice and the empty slice are both `[]`.
A run-time panic of the Go program is an explicit outcome of the model.
-/

namespace Unescape

/-! ## Data model -/

/-- The two error values of the package (`unescape.go`, lines 87-93). -/
inductive Error
  | ErrShortScan
  | ErrNotEscaped
  deriving DecidableEq

/-- The two ways the body of `nginx` could panic: the explicit
`panic("unreachable")` of line 80 and an index out of range at the table
access `escape[b>>5]` of line 48. -/
inductive Panic
  | unreachable
  | indexOutOfRange
  deriving DecidableEq

/-- What a call of `nginx` does: it returns a pair `([]byte, error)`, the error
being `none` for Go's `nil`, or it panics. -/
inductive Outcome
  | ret (out : List Nat) (err : Option Error)
  | panic (p : Panic)
  deriving DecidableEq

/-- The table `hex` (line 99): the bytes of `"0123456789ABCDEF"`. -/
def hex : List Nat :=
  [0x30, 0x31, 0x32, 0x33, 0x34, 0x35, 0x36, 0x37, 0x38, 0x39,
   0x41, 0x42, 0x43, 0x44, 0x45, 0x46]

/-- The table `escape` (lines 103-123): eight `uint32` words. -/
def escape : List Nat :=
  [0xffffffff, 0x00000004, 0x00000000, 0x80000000,
   0xffffffff, 0xffffffff, 0xffffffff, 0xffffffff]

/-- Go's `bytes.IndexByte`: the index of the first `c` in `s`, or `-1`. -/
def IndexByte : List Nat → Nat → Int
  | [], _ => -1
  | x :: xs, c =>
    if x = c then 0
    else
      let n := IndexByte xs c
      if n < 0 then -1 else n + 1

/-- The test of line 48, `(escape[b>>5] & (1 << (b & 0x1f))) > 0`, on a byte
value `b`: `none` when the index `b>>5` is outside the table (Go would panic),
otherwise whether the test holds. The constant `1` has type `uint32` there, so
the shift is taken modulo `2^32`. -/
def mustEscape (b : Nat) : Option Bool :=
  match escape[b >>> 5]? with
  | none => none
  | some w => some (decide ((w &&& ((1 <<< (b &&& 0x1f)) % 2 ^ 32)) > 0))

/-- The local variables of `nginx` that live across loop iterations
(lines 40-45): the output built so far, the unescape-mode flag, the
intermediate char and the count of chars seen in unescape mode. -/
structure Scan where
  out : List Nat
  unescape : Bool
  c : Nat
  seen : Nat
  deriving DecidableEq

/-- The effect of one iteration of the loop body: `next` is reaching the end
of the body or a `continue`, `ret` is a `return` with an error, `panic` is a
panic. -/
inductive Step
  | next (s : Scan)
  | ret (out : List Nat) (err : Error)
  | panic (p : Panic)
  deriving DecidableEq

/-- One iteration of the loop of `nginx` (lines 47-82) on the byte `b`. -/
def step (validate : Bool) (s : Scan) (b : Nat) : Step :=
  match (if validate then mustEscape b else some false) with
  | none => .panic .indexOutOfRange
  | some true => .ret s.out .ErrNotEscaped
  | some false =>
    if !s.unescape && b == 0x5C then
      .next { s with unescape := true, seen := 0, c := 0 }
    else if s.unescape && s.seen == 0 then
      if b == 0x78 then .next { s with seen := (s.seen + 1) % 256 }
      else .ret s.out .ErrShortScan
    else if s.unescape && decide (s.seen > 0) then
      let n := IndexByte hex b
      if n < 0 then .ret s.out .ErrShortScan
      else if s.seen == 1 then
        .next { s with c := (n.toNat <<< 4) % 256, seen := (s.seen + 1) % 256 }
      else if s.seen == 2 then
        .next { s with c := s.c ^^^ (n.toNat % 256),
                       out := s.out ++ [s.c ^^^ (n.toNat % 256)],
                       unescape := false }
      else .panic .unreachable
    else .next { s with out := s.out ++ [b] }

/-- The `for _, b := range input` loop of `nginx` (lines 46-83): the bytes are
taken in order until one iteration returns or panics; `next s` means the loop
ran off the end of the input in state `s`. -/
def scan (validate : Bool) : Scan → List Nat → Step
  | s, [] => .next s
  | s, b :: rest =>
    match step validate s b with
    | .next s' => scan validate s' rest
    | .ret out err => .ret out err
    | .panic p => .panic p

/-- The state in which the loop is entered (lines 40-45): empty output, flag
off, both bytes zero. -/
def start : Scan := { out := [], unescape := false, c := 0, seen := 0 }

/-- How `nginx` ends after the loop: an early `return` or panic of the loop is
the outcome; otherwise line 84 returns the output with a `nil` error. -/
def finish : Step → Outcome
  | .next s => .ret s.out none
  | .ret out err => .ret out (some err)
  | .panic p => .panic p

/-- The function `nginx` (lines 29-85). -/
def nginx (input : List Nat) (validate : Bool) : Outcome :=
  if input.length = 0 then .ret [] none
  else if !validate && decide (IndexByte input 0x5C < 0) then .ret input none
  else finish (scan validate start input)

/-- The function `Nginx` (line 20): permissive mode. -/
def Nginx (input : List Nat) : Outcome := nginx input false

/-- The function `NginxUnsafe` (line 27): strict mode. -/
def NginxUnsafe (input : List Nat) : Outcome := nginx input true

/-! ## Vocabulary of the specification -/

/-- The bytes of an ASCII string literal, for stating the examples of the
tests (`[]byte("...")`). -/
def bytesOf (s : String) : List Nat := s.toList.map Char.toNat

/-- A byte the classification table lets through in strict mode: the test of
line 48 is in range and false. -/
def allowed (b : Nat) : Prop := mustEscape b = some false

instance (b : Nat) : Decidable (allowed b) := by unfold allowed; infer_instance

/-- A byte passes the check of lines 47-51 in mode `v`: nothing is asked in
permissive mode, the table must allow it in strict mode. -/
def passes (v : Bool) (b : Nat) : Prop := v = true → allowed b

/-- A token of the escaped text: a single literal byte, or the four bytes
backslash, `x`, `H`, `L` of an escape. -/
inductive Token
  | lit (b : Nat)
  | esc (H L : Nat)
  deriving DecidableEq

/-- The bytes a token stands for in the input. -/
def Token.bytes : Token → List Nat
  | .lit b => [b]
  | .esc H L => [0x5C, 0x78, H, L]

/-- A well-formed token: a literal is not the backslash, the two digits of an
escape are in `"0123456789ABCDEF"`. -/
def Token.wf : Token → Prop
  | .lit b => b ≠ 0x5C
  | .esc H L => H ∈ hex ∧ L ∈ hex

instance (t : Token) : Decidable t.wf := by cases t <;> unfold Token.wf <;> infer_instance

/-- The position of a byte in `"0123456789ABCDEF"` (16 when it is absent). -/
def hexPos (d : Nat) : Nat := hex.indexOf d

/-- The byte a token decodes to: the literal itself, or `16*h + l` for the
positions `h`, `l` of the two digits. -/
def Token.value : Token → Nat
  | .lit b => b
  | .esc H L => 16 * hexPos H + hexPos L

/-- The input made of a sequence of tokens: their bytes, concatenated. -/
def render : List Token → List Nat
  | [] => []
  | t :: ts => t.bytes ++ render ts

/-- The output expected of a sequence of tokens: one byte per token. -/
def values (ts : List Token) : List Nat := ts.map Token.value

/-- Modelled from the spec: which bytes the reference encoder of the
round-trip law escapes (the encoder is nginx's log writer; this repository has
no encoder): `b <= 0x1F`, `0x22`, `0x5C` and `b >= 0x7F`. -/
def needsEscape (b : Nat) : Bool := b ≤ 0x1F || b == 0x22 || b == 0x5C || 0x7F ≤ b

/-- Modelled from the spec: the reference encoder on one byte: backslash, `x`,
`hex[b>>4]`, `hex[b&15]` for a byte it escapes, the byte itself otherwise. -/
def encodeByte (b : Nat) : List Nat :=
  if needsEscape b then [0x5C, 0x78, hex.getD (b >>> 4) 0, hex.getD (b &&& 15) 0] else [b]

/-- Modelled from the spec: the reference encoder: the encodings of the bytes,
concatenated. -/
def encode : List Nat → List Nat
  | [] => []
  | b :: bs => encodeByte b ++ encode bs

/-- The token the reference encoder emits for the byte `b`. -/
def tokenOf (b : Nat) : Token :=
  if needsEscape b then .esc (hex.getD (b >>> 4) 0) (hex.getD (b &&& 15) 0) else .lit b

/-- The list starts with a complete escape: backslash, `x` and two digits of
`"0123456789ABCDEF"`. -/
def escapeAt : List Nat → Bool
  | a :: m :: H :: L :: _ => a == 0x5C && m == 0x78 && decide (H ∈ hex) && decide (L ∈ hex)
  | _ => false

/-- Byte number `i` of the input is part of a complete escape: one starts at a
position `j` with `j <= i < j + 4`. -/
def inEscape (input : List Nat) (i : Nat) : Bool :=
  (List.range (i + 1)).any fun j => decide (i < j + 4) && escapeAt (input.drop j)

/-- Strict-mode-valid input in the words of the spec: every byte is part of a
complete escape or is a byte the classification table allows unescaped. -/
def strictValid (input : List Nat) : Prop :=
  ∀ i, i < input.length → inEscape input i = true ∨ allowed (input.getD i 0)

instance (input : List Nat) : Decidable (strictValid input) := by
  unfold strictValid; infer_instance

/-- Strict-mode-valid input with the backslash kept for escapes: every byte is
part of a complete escape or is a byte other than backslash that the
classification table allows unescaped. -/
def strictValidNoStray (input : List Nat) : Prop :=
  ∀ i, i < input.length →
    inEscape input i = true ∨ (input.getD i 0 ≠ 0x5C ∧ allowed (input.getD i 0))

instance (input : List Nat) : Decidable (strictValidNoStray input) := by
  unfold strictValidNoStray; infer_instance

/-- The variant of `nginx` with the no-backslash shortcut, the block
`if !validate { ... }` of lines 33-39, removed: the empty-input return of
lines 30-32, then the loop of lines 40-84 alone. -/
def nginxNoShortcut (input : List Nat) (validate : Bool) : Outcome :=
  if input.length = 0 then .ret [] none
  else finish (scan validate start input)

/-! ## Lemmas on the tables -/

theorem IndexByte_neg_iff (s : List Nat) (c : Nat) : IndexByte s c < 0 ↔ c ∉ s := by
  induction s with
  | nil => simp [IndexByte]
  | cons x xs ih =>
    have hge : ∀ (l : List Nat), -1 ≤ IndexByte l c := by
      intro l
      induction l with
      | nil => simp [IndexByte]
      | cons y ys ihy =>
        simp only [IndexByte]
        split_ifs <;> omega
    simp only [IndexByte, List.mem_cons, not_or]
    by_cases hx : x = c
    · simp [hx]
    · have := hge xs
      have hx' : ¬ c = x := fun h => hx h.symm
      simp only [hx, hx', if_false, not_false_eq_true, true_and]
      rw [← ih]
      split_ifs <;> omega

theorem IndexByte_hex (d : Nat) (h : d ∈ hex) :
    IndexByte hex d = (hexPos d : Int) ∧ hexPos d < 16 := by
  simp only [hex, List.mem_cons, List.mem_singleton, List.not_mem_nil, or_false] at h
  rcases h with h | h | h | h | h | h | h | h | h | h | h | h | h | h | h | h <;>
    subst h <;> decide

theorem allowed_hex (d : Nat) (h : d ∈ hex) : allowed d := by
  simp only [hex, List.mem_cons, List.mem_singleton, List.not_mem_nil, or_false] at h
  rcases h with h | h | h | h | h | h | h | h | h | h | h | h | h | h | h | h <;>
    subst h <;> decide

theorem hex_ne_backslash (d : Nat) (h : d ∈ hex) : d ≠ 0x5C := by
  rintro rfl
  revert h
  decide

/-- The two nibbles recombine: the XOR of `h<<4` and `l` is `16*h + l`. -/
theorem nibbles_xor (h l : Nat) (hh : h < 16) (hl : l < 16) :
    ((h <<< 4) % 256) ^^^ (l % 256) = 16 * h + l := by
  revert l
  revert h
  decide

/-! ## Lemmas on one iteration -/

theorem passes_false (b : Nat) : passes false b := by
  intro h
  cases h

theorem passes_of_allowed (v : Bool) (b : Nat) (h : allowed b) : passes v b :=
  fun _ => h

theorem check_of_passes (v : Bool) (b : Nat) (h : passes v b) :
    (if v then mustEscape b else some false) = some false := by
  cases v with
  | false => rfl
  | true => simpa using h rfl

theorem step_lit (v : Bool) (out : List Nat) (c n b : Nat) (hb : b ≠ 0x5C)
    (hp : passes v b) :
    step v ⟨out, false, c, n⟩ b = .next ⟨out ++ [b], false, c, n⟩ := by
  simp [step, check_of_passes v b hp, hb]

theorem step_backslash (v : Bool) (out : List Nat) (c n : Nat) :
    step v ⟨out, false, c, n⟩ 0x5C = .next ⟨out, true, 0, 0⟩ := by
  have hp : passes v 0x5C := passes_of_allowed v _ (by decide)
  simp [step, check_of_passes v _ hp]

theorem step_x (v : Bool) (out : List Nat) (c : Nat) :
    step v ⟨out, true, c, 0⟩ 0x78 = .next ⟨out, true, c, 1⟩ := by
  have hp : passes v 0x78 := passes_of_allowed v _ (by decide)
  simp [step, check_of_passes v _ hp]

theorem step_digit1 (v : Bool) (out : List Nat) (c H : Nat) (hH : H ∈ hex) :
    step v ⟨out, true, c, 1⟩ H = .next ⟨out, true, (hexPos H <<< 4) % 256, 2⟩ := by
  have hp : passes v H := passes_of_allowed v _ (allowed_hex H hH)
  obtain ⟨hi, _⟩ := IndexByte_hex H hH
  simp [step, check_of_passes v _ hp, hi]

theorem step_digit2 (v : Bool) (out : List Nat) (c L : Nat) (hL : L ∈ hex) :
    step v ⟨out, true, c, 2⟩ L =
      .next ⟨out ++ [c ^^^ (hexPos L % 256)], false, c ^^^ (hexPos L % 256), 2⟩ := by
  have hp : passes v L := passes_of_allowed v _ (allowed_hex L hL)
  obtain ⟨hi, _⟩ := IndexByte_hex L hL
  simp [step, check_of_passes v _ hp, hi]

/-- A byte the table marks stops the strict scan with `ErrNotEscaped`, in any
state. -/
theorem step_disallowed (s : Scan) (b : Nat) (h : mustEscape b = some true) :
    step true s b = .ret s.out .ErrNotEscaped := by
  simp [step, h]

/-- After a backslash, a byte other than `x` that passes the check stops the
scan with `ErrShortScan`. -/
theorem step_no_marker (v : Bool) (out : List Nat) (c b : Nat) (hb : b ≠ 0x78)
    (hp : passes v b) :
    step v ⟨out, true, c, 0⟩ b = .ret out .ErrShortScan := by
  simp [step, check_of_passes v b hp, hb]

/-- In a digit position, a byte outside `hex` that passes the check stops the
scan with `ErrShortScan`. -/
theorem step_no_digit (v : Bool) (out : List Nat) (c n b : Nat) (hn : 0 < n)
    (hb : b ∉ hex) (hp : passes v b) :
    step v ⟨out, true, c, n⟩ b = .ret out .ErrShortScan := by
  have hi : IndexByte hex b < 0 := (IndexByte_neg_iff hex b).2 hb
  have hn0 : n ≠ 0 := by omega
  simp [step, check_of_passes v b hp, hn0, hn, hi]

/-! ## Lemmas on the loop -/

theorem scan_append (v : Bool) (s : Scan) (a b : List Nat) :
    scan v s (a ++ b) =
      match scan v s a with
      | .next s' => scan v s' b
      | .ret out err => .ret out err
      | .panic p => .panic p := by
  induction a generalizing s with
  | nil => simp [scan]
  | cons x xs ih =>
    simp only [List.cons_append, scan]
    cases hs : step v s x with
    | next s' => simpa using ih s'
    | ret out err => rfl
    | panic p => rfl

theorem scan_append_next (v : Bool) (s s' : Scan) (a b : List Nat)
    (h : scan v s a = .next s') : scan v s (a ++ b) = scan v s' b := by
  rw [scan_append, h]

/-- Outside an escape the scan does not depend on the stale values of `c` and
`seen`: the next backslash resets both. -/
theorem scan_idle (v : Bool) (out : List Nat) (c n : Nat) (xs : List Nat) :
    finish (scan v ⟨out, false, c, n⟩ xs) = finish (scan v ⟨out, false, 0, 0⟩ xs) := by
  induction xs generalizing out with
  | nil => rfl
  | cons x rest ih =>
    by_cases hx : x = 0x5C
    · subst hx
      simp only [scan, step_backslash]
    · simp only [scan]
      cases hc : (if v then mustEscape x else some false) with
      | none => simp [step, hc, finish]
      | some t =>
        cases t with
        | true => simp [step, hc, finish]
        | false =>
          have hp : passes v x := by
            intro hv
            subst hv
            simpa [allowed] using hc
          rw [step_lit v out c n x hx hp, step_lit v out 0 0 x hx hp]
          exact ih (out ++ [x])

/-- A run of bytes without a backslash, each passing the check, is copied to
the output. -/
theorem scan_plain (v : Bool) (xs : List Nat) (hx : ∀ x ∈ xs, x ≠ 0x5C)
    (hp : ∀ x ∈ xs, passes v x) (out : List Nat) (c n : Nat) :
    scan v ⟨out, false, c, n⟩ xs = .next ⟨out ++ xs, false, c, n⟩ := by
  induction xs generalizing out with
  | nil => simp [scan]
  | cons x rest ih =>
    have h1 : x ≠ 0x5C := hx x (List.mem_cons_self x rest)
    have h2 : passes v x := hp x (List.mem_cons_self x rest)
    simp only [scan, step_lit v out c n x h1 h2]
    rw [ih (fun y hy => hx y (List.mem_cons_of_mem x hy))
      (fun y hy => hp y (List.mem_cons_of_mem x hy)) (out ++ [x])]
    simp

/-- The scan of a sequence of well-formed tokens, started outside an escape,
ends outside an escape having appended one byte per token. -/
theorem scan_render (v : Bool) (ts : List Token) (hwf : ∀ t ∈ ts, t.wf)
    (hp : ∀ x ∈ render ts, passes v x) (out : List Nat) (c n : Nat) :
    ∃ c' n', scan v ⟨out, false, c, n⟩ (render ts)
      = .next ⟨out ++ values ts, false, c', n'⟩ := by
  induction ts generalizing out c n with
  | nil => exact ⟨c, n, by simp [render, values, scan]⟩
  | cons t rest ih =>
    have hwt : t.wf := hwf t (List.mem_cons_self t rest)
    have hwr : ∀ u ∈ rest, u.wf := fun u hu => hwf u (List.mem_cons_of_mem t hu)
    have hpr : ∀ x ∈ render rest, passes v x := fun x hx =>
      hp x (by simp only [render, List.mem_append]; exact Or.inr hx)
    cases t with
    | lit b =>
      have hb : b ≠ 0x5C := hwt
      have hpb : passes v b := hp b (by simp [render, Token.bytes])
      obtain ⟨c', n', h⟩ := ih hwr hpr (out ++ [b]) c n
      refine ⟨c', n', ?_⟩
      have e : render (Token.lit b :: rest) = b :: render rest := rfl
      rw [e]
      simp only [scan, step_lit v out c n b hb hpb]
      rw [h]
      simp [values, Token.value]
    | esc H L =>
      obtain ⟨hH, hL⟩ : H ∈ hex ∧ L ∈ hex := hwt
      have hv : ((hexPos H <<< 4) % 256) ^^^ (hexPos L % 256) = 16 * hexPos H + hexPos L :=
        nibbles_xor _ _ (IndexByte_hex H hH).2 (IndexByte_hex L hL).2
      obtain ⟨c', n', h⟩ := ih hwr hpr (out ++ [16 * hexPos H + hexPos L])
        (16 * hexPos H + hexPos L) 2
      refine ⟨c', n', ?_⟩
      have e : render (Token.esc H L :: rest) = 0x5C :: 0x78 :: H :: L :: render rest := rfl
      rw [e]
      simp only [scan, step_backslash, step_x, step_digit1 v out 0 H hH,
        step_digit2 v out _ L hL, hv]
      rw [h]
      simp [values, Token.value]

/-- The early returns of `nginx` (lines 30-39) agree with the loop: in both
modes the call is the loop run from the start state. -/
theorem nginx_eq_scan (input : List Nat) (v : Bool) :
    nginx input v = finish (scan v start input) := by
  unfold nginx
  split_ifs with h0 h1
  · have : input = [] := List.length_eq_zero.mp h0
    subst this
    rfl
  · simp only [Bool.and_eq_true, Bool.not_eq_true', decide_eq_true_eq] at h1
    obtain ⟨hv, hi⟩ := h1
    subst hv
    have hno : (0x5C : Nat) ∉ input := (IndexByte_neg_iff input 0x5C).1 hi
    have := scan_plain false input (fun x hx hxe => hno (hxe ▸ hx))
      (fun x _ => passes_false x) [] 0 0
    simp only [start, this, finish, List.nil_append]
  · rfl

/-- A sequence of well-formed tokens whose bytes all pass the check decodes,
in either mode, to one byte per token, without error. -/
theorem nginx_render (v : Bool) (ts : List Token) (hwf : ∀ t ∈ ts, t.wf)
    (hp : ∀ x ∈ render ts, passes v x) :
    nginx (render ts) v = .ret (values ts) none := by
  obtain ⟨c', n', h⟩ := scan_render v ts hwf hp [] 0 0
  rw [nginx_eq_scan, start, h]
  simp [finish]

/-! ## The reference encoder -/

set_option maxRecDepth 100000 in
theorem tokenOf_facts (b : Nat) (hb : b < 256) :
    (tokenOf b).wf ∧ (tokenOf b).value = b ∧ (tokenOf b).bytes = encodeByte b ∧
      ∀ x ∈ (tokenOf b).bytes, allowed x := by
  revert b
  decide

theorem encode_eq_render (raw : List Nat) : encode raw = render (raw.map tokenOf) := by
  induction raw with
  | nil => rfl
  | cons b bs ih =>
    have hb : (tokenOf b).bytes = encodeByte b := by
      unfold tokenOf encodeByte
      split_ifs <;> rfl
    simp only [encode, List.map_cons, render, ih, hb]

theorem encode_tokens (raw : List Nat) (h : ∀ b ∈ raw, b < 256) :
    (∀ t ∈ raw.map tokenOf, t.wf) ∧ values (raw.map tokenOf) = raw ∧
      ∀ x ∈ render (raw.map tokenOf), allowed x := by
  induction raw with
  | nil => simp [values, render]
  | cons b bs ih =>
    obtain ⟨h1, h2, h3⟩ := ih (fun x hx => h x (List.mem_cons_of_mem b hx))
    obtain ⟨f1, f2, _, f4⟩ := tokenOf_facts b (h b (List.mem_cons_self b bs))
    refine ⟨?_, ?_, ?_⟩
    · intro t ht
      simp only [List.map_cons, List.mem_cons] at ht
      rcases ht with rfl | ht
      · exact f1
      · exact h1 t ht
    · simp only [values, List.map_cons, f2] at h2 ⊢
      rw [h2]
    · intro x hx
      simp only [List.map_cons, render, List.mem_append] at hx
      rcases hx with hx | hx
      · exact f4 x hx
      · exact h3 x hx

/-! ## The classification table -/

set_option maxRecDepth 100000 in
/-- On a byte value the table access is in range and the test of line 48 is
true exactly for the control bytes, the quote, DEL and the high bytes. -/
theorem mustEscape_spec (b : Nat) (hb : b < 256) :
    b >>> 5 < escape.length ∧
      mustEscape b = some (decide (b ≤ 0x1F ∨ b = 0x22 ∨ 0x7F ≤ b)) := by
  revert b
  decide

/-! ## Malformed escapes -/

/-- A call that returns without error is a loop that ran off the end of the
input, and the output is the one of the final state. -/
theorem scan_of_nginx_ok (input q : List Nat) (v : Bool) (h : nginx input v = .ret q none) :
    ∃ s, scan v start input = .next s ∧ s.out = q := by
  rw [nginx_eq_scan] at h
  cases hs : scan v start input with
  | next s =>
    rw [hs] at h
    simp only [finish, Outcome.ret.injEq, and_true] at h
    exact ⟨s, rfl, h⟩
  | ret out err =>
    rw [hs] at h
    simp [finish] at h
  | panic p =>
    rw [hs] at h
    simp [finish] at h

/-- After a sequence of tokens, a backslash followed by a byte other than `x`
stops the scan with `ErrShortScan` and the output decoded so far. -/
theorem nginx_no_marker (v : Bool) (ts : List Token) (hwf : ∀ t ∈ ts, t.wf)
    (hp : ∀ x ∈ render ts, passes v x) (b : Nat) (hb : b ≠ 0x78) (hpb : passes v b)
    (rest : List Nat) :
    nginx (render ts ++ [0x5C, b] ++ rest) v = .ret (values ts) (some .ErrShortScan) := by
  obtain ⟨c', n', h⟩ := scan_render v ts hwf hp [] 0 0
  rw [nginx_eq_scan, start, List.append_assoc, scan_append_next v _ _ _ _ h]
  simp [scan, step_backslash, step_no_marker v _ _ b hb hpb, finish]

/-- After a sequence of tokens, backslash, `x` and a byte outside `hex` stop
the scan with `ErrShortScan` and the output decoded so far. -/
theorem nginx_no_digit1 (v : Bool) (ts : List Token) (hwf : ∀ t ∈ ts, t.wf)
    (hp : ∀ x ∈ render ts, passes v x) (b : Nat) (hb : b ∉ hex) (hpb : passes v b)
    (rest : List Nat) :
    nginx (render ts ++ [0x5C, 0x78, b] ++ rest) v = .ret (values ts) (some .ErrShortScan) := by
  obtain ⟨c', n', h⟩ := scan_render v ts hwf hp [] 0 0
  rw [nginx_eq_scan, start, List.append_assoc, scan_append_next v _ _ _ _ h]
  simp [scan, step_backslash, step_x, step_no_digit v _ _ 1 b (by decide) hb hpb, finish]

/-- After a sequence of tokens, backslash, `x`, one digit and a byte outside
`hex` stop the scan with `ErrShortScan` and the output decoded so far. -/
theorem nginx_no_digit2 (v : Bool) (ts : List Token) (hwf : ∀ t ∈ ts, t.wf)
    (hp : ∀ x ∈ render ts, passes v x) (H : Nat) (hH : H ∈ hex) (b : Nat) (hb : b ∉ hex)
    (hpb : passes v b) (rest : List Nat) :
    nginx (render ts ++ [0x5C, 0x78, H, b] ++ rest) v
      = .ret (values ts) (some .ErrShortScan) := by
  obtain ⟨c', n', h⟩ := scan_render v ts hwf hp [] 0 0
  rw [nginx_eq_scan, start, List.append_assoc, scan_append_next v _ _ _ _ h]
  simp [scan, step_backslash, step_x, step_digit1 v _ _ H hH,
    step_no_digit v _ _ 2 b (by decide) hb hpb, finish]

/-! ## Strict-mode-valid inputs -/

theorem inEscape_iff (input : List Nat) (i : Nat) :
    inEscape input i = true ↔ ∃ j, j ≤ i ∧ i < j + 4 ∧ escapeAt (input.drop j) = true := by
  simp only [inEscape, List.any_eq_true, List.mem_range, Bool.and_eq_true, decide_eq_true_eq]
  constructor
  · rintro ⟨j, hj, h1, h2⟩
    exact ⟨j, by omega, h1, h2⟩
  · rintro ⟨j, hj, h1, h2⟩
    exact ⟨j, by omega, h1, h2⟩

theorem escapeAt_cons (a : Nat) (l : List Nat) (h : escapeAt (a :: l) = true) :
    ∃ H L tl, a = 0x5C ∧ l = 0x78 :: H :: L :: tl ∧ H ∈ hex ∧ L ∈ hex := by
  match l, h with
  | m :: H :: L :: tl, h =>
    simp only [escapeAt, Bool.and_eq_true, beq_iff_eq, decide_eq_true_eq] at h
    obtain ⟨⟨⟨h1, h2⟩, h3⟩, h4⟩ := h
    exact ⟨H, L, tl, h1, by rw [h2], h3, h4⟩

/-- An input in which every byte is part of a complete escape or is an allowed
byte other than backslash splits into well-formed tokens of allowed bytes. -/
theorem tokens_of_strictValidNoStray (n : Nat) (input : List Nat) (hn : input.length ≤ n)
    (h : strictValidNoStray input) :
    ∃ ts, (∀ t ∈ ts, t.wf) ∧ render ts = input ∧ ∀ x ∈ input, allowed x := by
  induction n generalizing input with
  | zero =>
    have : input = [] := List.length_eq_zero.mp (by omega)
    subst this
    exact ⟨[], by simp, rfl, by simp⟩
  | succ n ih =>
    cases input with
    | nil => exact ⟨[], by simp, rfl, by simp⟩
    | cons b tl =>
      have h0 := h 0 (by simp)
      by_cases he : escapeAt (b :: tl) = true
      · obtain ⟨H, L, tl4, hb, htl, hH, hL⟩ := escapeAt_cons b tl he
        subst hb
        subst htl
        have hv : strictValidNoStray tl4 := by
          intro i hi
          have hi4 := h (i + 4) (by simp only [List.length_cons] at hn ⊢; omega)
          rcases hi4 with hi4 | hi4
          · left
            obtain ⟨j, hj1, hj2, hj3⟩ := (inEscape_iff _ _).1 hi4
            rw [inEscape_iff]
            match j, hj1, hj2, hj3 with
            | 0, _, hj2, _ => omega
            | 1, _, _, hj3 =>
              obtain ⟨_, _, _, hx, _⟩ := escapeAt_cons _ _ hj3
              cases hx
            | 2, _, _, hj3 =>
              obtain ⟨_, _, _, hx, _⟩ := escapeAt_cons _ _ hj3
              exact absurd hx (hex_ne_backslash H hH)
            | 3, _, _, hj3 =>
              obtain ⟨_, _, _, hx, _⟩ := escapeAt_cons _ _ hj3
              exact absurd hx (hex_ne_backslash L hL)
            | j + 4, hj1, hj2, hj3 =>
              exact ⟨j, by omega, by omega, hj3⟩
          · right
            simpa using hi4
        obtain ⟨ts, h1, h2, h3⟩ := ih tl4 (by simp only [List.length_cons] at hn; omega) hv
        refine ⟨.esc H L :: ts, ?_, ?_, ?_⟩
        · intro t ht
          simp only [List.mem_cons] at ht
          rcases ht with rfl | ht
          · exact ⟨hH, hL⟩
          · exact h1 t ht
        · simp [render, Token.bytes, h2]
        · intro x hx
          simp only [List.mem_cons] at hx
          rcases hx with rfl | rfl | rfl | rfl | hx
          · decide
          · decide
          · exact allowed_hex _ hH
          · exact allowed_hex _ hL
          · exact h3 x hx
      · have hg : b ≠ 0x5C ∧ allowed b := by
          rcases h0 with h0 | h0
          · obtain ⟨j, hj1, _, hj3⟩ := (inEscape_iff _ _).1 h0
            have : j = 0 := by omega
            subst this
            exact absurd hj3 he
          · simpa using h0
        have hv : strictValidNoStray tl := by
          intro i hi
          have hi1 := h (i + 1) (by simp only [List.length_cons]; omega)
          rcases hi1 with hi1 | hi1
          · left
            obtain ⟨j, hj1, hj2, hj3⟩ := (inEscape_iff _ _).1 hi1
            rw [inEscape_iff]
            match j, hj1, hj2, hj3 with
            | 0, _, _, hj3 => exact absurd hj3 he
            | j + 1, hj1, hj2, hj3 => exact ⟨j, by omega, by omega, hj3⟩
          · right
            simpa using hi1
        obtain ⟨ts, h1, h2, h3⟩ := ih tl (by simp only [List.length_cons] at hn; omega) hv
        refine ⟨.lit b :: ts, ?_, ?_, ?_⟩
        · intro t ht
          simp only [List.mem_cons] at ht
          rcases ht with rfl | ht
          · exact hg.1
          · exact h1 t ht
        · simp [render, Token.bytes, h2]
        · intro x hx
          simp only [List.mem_cons] at hx
          rcases hx with rfl | hx
          · exact hg.2
          · exact h3 x hx

/-! ## The digit counter -/

/-- One iteration keeps the digit counter at most 2. -/
theorem step_seen (v : Bool) (s s' : Scan) (b : Nat) (hs : s.seen ≤ 2)
    (h : step v s b = .next s') : s'.seen ≤ 2 := by
  obtain ⟨out, u, c, n⟩ := s
  simp only at hs
  unfold step at h
  split at h
  · cases h
  · cases h
  · cases u <;> interval_cases n <;> simp at h <;> split_ifs at h <;>
      simp at h <;> subst h <;> simp

/-- With the digit counter at most 2, one iteration on a byte value does not
panic: the table index is in range and the `unreachable` branch is not
taken. -/
theorem step_no_panic (v : Bool) (s : Scan) (b : Nat) (hs : s.seen ≤ 2) (hb : b < 256)
    (q : Panic) : step v s b ≠ .panic q := by
  obtain ⟨out, u, c, n⟩ := s
  simp only at hs
  have hm := (mustEscape_spec b hb).2
  intro h
  unfold step at h
  split at h
  · rename_i hc
    cases v <;> simp [hm] at hc
  · cases h
  · cases u <;> interval_cases n <;> simp at h <;> split_ifs at h

theorem scan_seen (v : Bool) (xs : List Nat) (s s' : Scan) (hs : s.seen ≤ 2)
    (h : scan v s xs = .next s') : s'.seen ≤ 2 := by
  induction xs generalizing s with
  | nil =>
    simp only [scan, Step.next.injEq] at h
    subst h
    exact hs
  | cons x rest ih =>
    simp only [scan] at h
    cases hx : step v s x with
    | next t =>
      rw [hx] at h
      exact ih t (step_seen v s t x hs hx) h
    | ret out err => rw [hx] at h; cases h
    | panic p => rw [hx] at h; cases h

theorem scan_no_panic (v : Bool) (xs : List Nat) (s : Scan) (hs : s.seen ≤ 2)
    (hb : ∀ b ∈ xs, b < 256) (q : Panic) : scan v s xs ≠ .panic q := by
  induction xs generalizing s with
  | nil => simp [scan]
  | cons x rest ih =>
    simp only [scan]
    cases hx : step v s x with
    | next t =>
      exact ih t (step_seen v s t x hs hx) (fun b hb' => hb b (List.mem_cons_of_mem x hb'))
    | ret out err => simp
    | panic p => exact absurd hx (step_no_panic v s x hs (hb x (List.mem_cons_self x rest)) p)

/-! ## The output of the scan -/

/-- What one iteration can do: stop with the output unchanged, or go on with
the output unchanged or extended by one byte. -/
theorem step_cases (v : Bool) (s : Scan) (b : Nat) :
    (∃ p, step v s b = .panic p) ∨ (∃ e, step v s b = .ret s.out e) ∨
      ∃ s', step v s b = .next s' ∧ (s'.out = s.out ∨ ∃ y, s'.out = s.out ++ [y]) := by
  unfold step
  split
  · exact Or.inl ⟨_, rfl⟩
  · exact Or.inr (Or.inl ⟨_, rfl⟩)
  · dsimp only
    split_ifs <;>
      first
        | exact Or.inl ⟨_, rfl⟩
        | exact Or.inr (Or.inl ⟨_, rfl⟩)
        | exact Or.inr (Or.inr ⟨_, rfl, Or.inl rfl⟩)
        | exact Or.inr (Or.inr ⟨_, rfl, Or.inr ⟨_, rfl⟩⟩)

/-- The output only grows during the scan, by at most one byte per input
byte, and an early return hands back the output built so far. -/
theorem scan_out (v : Bool) (xs : List Nat) (s : Scan) :
    (∀ s', scan v s xs = .next s' →
        s.out <+: s'.out ∧ s'.out.length ≤ s.out.length + xs.length) ∧
      (∀ out e, scan v s xs = .ret out e →
        s.out <+: out ∧ out.length ≤ s.out.length + xs.length) := by
  induction xs generalizing s with
  | nil =>
    constructor
    · intro s' h
      simp only [scan, Step.next.injEq] at h
      subst h
      exact ⟨List.prefix_refl _, by simp⟩
    · intro out e h
      simp [scan] at h
  | cons x rest ih =>
    rcases step_cases v s x with ⟨p, hp⟩ | ⟨e, he⟩ | ⟨t, ht, hout⟩
    · constructor
      · intro s' h
        simp [scan, hp] at h
      · intro out e h
        simp [scan, hp] at h
    · constructor
      · intro s' h
        simp [scan, he] at h
      · intro out e' h
        simp only [scan, he, Step.ret.injEq] at h
        obtain ⟨h1, _⟩ := h
        subst h1
        exact ⟨List.prefix_refl _, by simp⟩
    · have hpre : s.out <+: t.out ∧ t.out.length ≤ s.out.length + 1 := by
        rcases hout with h | ⟨y, h⟩
        · rw [h]
          exact ⟨List.prefix_refl _, by omega⟩
        · rw [h]
          exact ⟨List.prefix_append _ _, by simp⟩
      obtain ⟨ih1, ih2⟩ := ih t
      constructor
      · intro s' h
        simp only [scan, ht] at h
        obtain ⟨a1, a2⟩ := ih1 s' h
        exact ⟨hpre.1.trans a1, by simp only [List.length_cons]; omega⟩
      · intro out e h
        simp only [scan, ht] at h
        obtain ⟨a1, a2⟩ := ih2 out e h
        exact ⟨hpre.1.trans a1, by simp only [List.length_cons]; omega⟩

/-! ## Permissive and strict mode -/

/-- In permissive mode, with the digit counter at most 2, one iteration goes
on or stops with `ErrShortScan`: it neither panics nor returns
`ErrNotEscaped`, whatever the byte. -/
theorem step_false_cases (s : Scan) (b : Nat) (hs : s.seen ≤ 2) :
    (∃ s', step false s b = .next s') ∨ step false s b = .ret s.out .ErrShortScan := by
  obtain ⟨out, u, c, n⟩ := s
  simp only at hs
  unfold step
  cases u <;> interval_cases n <;> simp <;> split_ifs <;> simp [*]

theorem scan_false_cases (xs : List Nat) (s : Scan) (hs : s.seen ≤ 2) :
    (∃ s', scan false s xs = .next s') ∨ ∃ out, scan false s xs = .ret out .ErrShortScan := by
  induction xs generalizing s with
  | nil => exact Or.inl ⟨s, rfl⟩
  | cons x rest ih =>
    rcases step_false_cases s x hs with ⟨t, ht⟩ | h
    · simp only [scan, ht]
      exact ih t (step_seen false s t x hs ht)
    · exact Or.inr ⟨s.out, by simp [scan, h]⟩

/-- On a byte the table allows, the strict iteration is the permissive one. -/
theorem step_allowed_eq (s : Scan) (b : Nat) (h : allowed b) :
    step true s b = step false s b := by
  have h' : mustEscape b = some false := h
  simp [step, h']

theorem scan_allowed_eq (xs : List Nat) (h : ∀ b ∈ xs, allowed b) (s : Scan) :
    scan true s xs = scan false s xs := by
  induction xs generalizing s with
  | nil => rfl
  | cons x rest ih =>
    simp only [scan, step_allowed_eq s x (h x (List.mem_cons_self x rest))]
    cases step false s x with
    | next t => exact ih (fun b hb => h b (List.mem_cons_of_mem x hb)) t
    | ret out err => rfl
    | panic p => rfl

/-- A scan that ran off the end of the input in mode `v` met only bytes that
pass the check of mode `v`. -/
theorem scan_next_passes (v : Bool) (xs : List Nat) (s s' : Scan)
    (h : scan v s xs = .next s') : ∀ b ∈ xs, passes v b := by
  induction xs generalizing s with
  | nil => simp
  | cons x rest ih =>
    simp only [scan] at h
    cases hx : step v s x with
    | next t =>
      rw [hx] at h
      intro b hb
      rcases List.mem_cons.1 hb with rfl | hb
      · intro hv
        subst hv
        cases hm : mustEscape b with
        | none => simp [step, hm] at hx
        | some w =>
          cases w with
          | false => exact hm
          | true => simp [step, hm] at hx
      · exact ih t h b hb
    | ret out err => rw [hx] at h; cases h
    | panic p => rw [hx] at h; cases h

/-! ## The scan after a decoded prefix -/

/-- One iteration does not look at the output: with `pre` put in front of the
output, it does the same and keeps `pre` in front. -/
theorem step_shift (v : Bool) (pre out : List Nat) (u : Bool) (c n b : Nat) :
    (∀ t, step v ⟨out, u, c, n⟩ b = .next t →
        step v ⟨pre ++ out, u, c, n⟩ b = .next ⟨pre ++ t.out, t.unescape, t.c, t.seen⟩) ∧
      (∀ o e, step v ⟨out, u, c, n⟩ b = .ret o e →
        step v ⟨pre ++ out, u, c, n⟩ b = .ret (pre ++ o) e) := by
  unfold step
  split
  · simp
  · simp
  · dsimp only
    split_ifs <;> simp

/-- The scan does not look at the output: with `pre` put in front of the
output, a call that returns `y` returns `pre ++ y` with the same error. -/
theorem scan_shift (v : Bool) (pre : List Nat) (xs : List Nat) (out : List Nat) (u : Bool)
    (c n : Nat) (y : List Nat) (e : Option Error)
    (h : finish (scan v ⟨out, u, c, n⟩ xs) = .ret y e) :
    finish (scan v ⟨pre ++ out, u, c, n⟩ xs) = .ret (pre ++ y) e := by
  induction xs generalizing out u c n with
  | nil =>
    simp only [scan, finish, Outcome.ret.injEq] at h ⊢
    obtain ⟨h1, h2⟩ := h
    subst h1
    exact ⟨rfl, h2⟩
  | cons x rest ih =>
    obtain ⟨s1, s2⟩ := step_shift v pre out u c n x
    simp only [scan] at h ⊢
    cases hx : step v ⟨out, u, c, n⟩ x with
    | next t =>
      rw [hx] at h
      rw [s1 t hx]
      exact ih t.out t.unescape t.c t.seen h
    | ret o err =>
      rw [hx] at h
      rw [s2 o err hx]
      simp only [finish, Outcome.ret.injEq] at h ⊢
      obtain ⟨h1, h2⟩ := h
      subst h1
      exact ⟨rfl, h2⟩
    | panic p =>
      rw [hx] at h
      simp [finish] at h

/-- Backslash-free input is returned as it is by `Nginx`. -/
theorem Nginx_plain (input : List Nat) (h : 0x5C ∉ input) : Nginx input = .ret input none := by
  have := scan_plain false input (fun x hx hxe => h (hxe ▸ hx))
    (fun x _ => passes_false x) [] 0 0
  rw [Nginx, nginx_eq_scan, start, this]
  simp [finish]

/-- On byte values, in either mode, the call returns and the output is no
longer than the input. -/
theorem nginx_length (input : List Nat) (v : Bool) (hb : ∀ b ∈ input, b < 256) :
    ∃ out err, nginx input v = .ret out err ∧ out.length ≤ input.length := by
  have h0 : start.seen ≤ 2 := by decide
  obtain ⟨h1, h2⟩ := scan_out v input start
  rw [nginx_eq_scan]
  cases hs : scan v start input with
  | next s => exact ⟨s.out, none, rfl, by simpa [start] using (h1 s hs).2⟩
  | ret out err => exact ⟨out, some err, rfl, by simpa [start] using (h2 out err hs).2⟩
  | panic q => exact absurd hs (scan_no_panic v input start h0 hb q)

/-- On byte values, in either mode, the calls on `a` and on `a ++ b` return
and the first output is a prefix of the second. -/
theorem nginx_monotone (v : Bool) (a b : List Nat) (hb : ∀ x ∈ a ++ b, x < 256) :
    ∃ qa ea qab eab, nginx a v = .ret qa ea ∧ nginx (a ++ b) v = .ret qab eab ∧
      qa <+: qab := by
  have h0 : start.seen ≤ 2 := by decide
  have hnp := scan_no_panic v (a ++ b) start h0 hb
  rw [nginx_eq_scan, nginx_eq_scan, scan_append]
  rw [scan_append] at hnp
  cases hs : scan v start a with
  | next s =>
    rw [hs] at hnp
    simp only at hnp ⊢
    obtain ⟨h1, h2⟩ := scan_out v b s
    cases hs2 : scan v s b with
    | next t => exact ⟨s.out, none, t.out, none, rfl, rfl, (h1 t hs2).1⟩
    | ret out err => exact ⟨s.out, none, out, some err, rfl, rfl, (h2 out err hs2).1⟩
    | panic q => exact absurd hs2 (hnp q)
  | ret out err => exact ⟨out, some err, out, some err, rfl, rfl, List.prefix_refl _⟩
  | panic q =>
    rw [hs] at hnp
    exact absurd rfl (hnp q)

/-- After a sequence of tokens, an escape cut off by the end of the input
(after the backslash, after the `x`, or after the first digit) adds nothing to
the output and raises no error. -/
theorem nginx_cut (v : Bool) (ts : List Token) (hwf : ∀ t ∈ ts, t.wf)
    (hp : ∀ x ∈ render ts, passes v x) (H : Nat) (hH : H ∈ hex) :
    nginx (render ts ++ [0x5C]) v = .ret (values ts) none ∧
      nginx (render ts ++ [0x5C, 0x78]) v = .ret (values ts) none ∧
      nginx (render ts ++ [0x5C, 0x78, H]) v = .ret (values ts) none := by
  obtain ⟨c', n', h⟩ := scan_render v ts hwf hp [] 0 0
  refine ⟨?_, ?_, ?_⟩
  · rw [nginx_eq_scan, start, scan_append_next v _ _ _ _ h]
    simp [scan, step_backslash, finish]
  · rw [nginx_eq_scan, start, scan_append_next v _ _ _ _ h]
    simp [scan, step_backslash, step_x, finish]
  · rw [nginx_eq_scan, start, scan_append_next v _ _ _ _ h]
    simp [scan, step_backslash, step_x, step_digit1 v _ _ H hH, finish]

/-- The bytes 0x20-0x7E other than 0x22 are allowed by the table. -/
theorem allowed_of_printable (b : Nat) (h : 0x20 ≤ b ∧ b ≤ 0x7E ∧ b ≠ 0x22) : allowed b := by
  have hb : b < 256 := by omega
  have hm := (mustEscape_spec b hb).2
  have hd : ¬ (b ≤ 0x1F ∨ b = 0x22 ∨ 0x7F ≤ b) := by omega
  rw [allowed, hm]
  simp [hd]

/-! ## The claims -/

/-- C1: round trip in permissive mode. For every sequence `raw` of bytes,
`Nginx` applied to the reference encoding of `raw` returns `raw` and no
error. -/
theorem C1_round_trip_permissive (raw : List Nat) (h : ∀ b ∈ raw, b < 256) :
    Nginx (encode raw) = .ret raw none := by
  obtain ⟨h1, h2, _⟩ := encode_tokens raw h
  have := nginx_render false (raw.map tokenOf) h1 (fun x _ => passes_false x)
  rw [h2, ← encode_eq_render] at this
  exact this

/-- The raw field `foo<TAB>.bar\?baz` of `TestNginx` is encoded as
`foo\x09.bar\x5C?baz` and decoded back. -/
theorem C1_round_trip_permissive_witness :
    (∀ b ∈ bytesOf "foo\t.bar\\?baz", b < 256) ∧
      encode (bytesOf "foo\t.bar\\?baz") = bytesOf "foo\\x09.bar\\x5C?baz" ∧
      Nginx (encode (bytesOf "foo\t.bar\\?baz")) = .ret (bytesOf "foo\t.bar\\?baz") none :=
  ⟨by decide, by decide, C1_round_trip_permissive (bytesOf "foo\t.bar\\?baz") (by decide)⟩

/-- C2: token-wise decoding. For every input that is a concatenation of
well-formed tokens (a byte other than backslash, or backslash, `x` and two
digits of `"0123456789ABCDEF"`), `Nginx` returns no error and one byte per
token, in order: the byte itself for a literal, `16*h + l` for an escape whose
digits have positions `h` and `l`; and that byte is the XOR the code computes
from `h<<4` and `l`, and fits a byte. -/
theorem C2_tokenwise_decoding (ts : List Token) (hwf : ∀ t ∈ ts, t.wf) :
    Nginx (render ts) = .ret (values ts) none ∧
      ∀ H L, Token.esc H L ∈ ts →
        ((hexPos H <<< 4) % 256) ^^^ (hexPos L % 256) = 16 * hexPos H + hexPos L ∧
          16 * hexPos H + hexPos L < 256 := by
  refine ⟨nginx_render false ts hwf (fun x _ => passes_false x), ?_⟩
  intro H L hmem
  obtain ⟨hH, hL⟩ : H ∈ hex ∧ L ∈ hex := hwf _ hmem
  have h1 := (IndexByte_hex H hH).2
  have h2 := (IndexByte_hex L hL).2
  exact ⟨nibbles_xor _ _ h1 h2, by omega⟩

/-- The example of `ExampleNginx`: `foo\x22.bar\x5C?baz` decodes to
`foo".bar\?baz`; the one of `TestNginx`: `foo\x09.bar\x5C?baz` decodes to
`foo<TAB>.bar\?baz`. -/
theorem C2_tokenwise_decoding_witness :
    render [.lit 0x66, .lit 0x6F, .lit 0x6F, .esc 0x32 0x32, .lit 0x2E, .lit 0x62, .lit 0x61,
        .lit 0x72, .esc 0x35 0x43, .lit 0x3F, .lit 0x62, .lit 0x61, .lit 0x7A]
      = bytesOf "foo\\x22.bar\\x5C?baz" ∧
    Nginx (bytesOf "foo\\x22.bar\\x5C?baz") = .ret (bytesOf "foo\".bar\\?baz") none ∧
    render [.lit 0x66, .lit 0x6F, .lit 0x6F, .esc 0x30 0x39, .lit 0x2E, .lit 0x62, .lit 0x61,
        .lit 0x72, .esc 0x35 0x43, .lit 0x3F, .lit 0x62, .lit 0x61, .lit 0x7A]
      = bytesOf "foo\\x09.bar\\x5C?baz" ∧
    Nginx (bytesOf "foo\\x09.bar\\x5C?baz") = .ret (bytesOf "foo\t.bar\\?baz") none :=
  ⟨by decide,
   (C2_tokenwise_decoding
      [.lit 0x66, .lit 0x6F, .lit 0x6F, .esc 0x32 0x32, .lit 0x2E, .lit 0x62, .lit 0x61,
        .lit 0x72, .esc 0x35 0x43, .lit 0x3F, .lit 0x62, .lit 0x61, .lit 0x7A]
      (by decide)).1,
   by decide,
   (C2_tokenwise_decoding
      [.lit 0x66, .lit 0x6F, .lit 0x6F, .esc 0x30 0x39, .lit 0x2E, .lit 0x62, .lit 0x61,
        .lit 0x72, .esc 0x35 0x43, .lit 0x3F, .lit 0x62, .lit 0x61, .lit 0x7A]
      (by decide)).1⟩

/-- C3: strict mode accepts everything the reference encoder emits. For every
sequence `raw` of bytes, `NginxUnsafe` applied to the reference encoding of
`raw` returns `raw` and no error; the backslash that starts an escape passes
the classification check. -/
theorem C3_strict_accepts_encoder (raw : List Nat) (h : ∀ b ∈ raw, b < 256) :
    NginxUnsafe (encode raw) = .ret raw none ∧ mustEscape 0x5C = some false := by
  obtain ⟨h1, h2, h3⟩ := encode_tokens raw h
  have := nginx_render true (raw.map tokenOf) h1 (fun x hx => passes_of_allowed true x (h3 x hx))
  rw [h2, ← encode_eq_render] at this
  exact ⟨this, by decide⟩

/-- The bytes 0x00, 0x1F, `"`, `\`, DEL, 0x80 and 0xFF, around the letters
`a` and `z`, go through the encoder and the strict decoder unchanged. -/
theorem C3_strict_accepts_encoder_witness :
    (∀ b ∈ [0x61, 0x00, 0x1F, 0x22, 0x5C, 0x7F, 0x80, 0xFF, 0x7A], b < 256) ∧
      NginxUnsafe (encode [0x61, 0x00, 0x1F, 0x22, 0x5C, 0x7F, 0x80, 0xFF, 0x7A])
        = .ret [0x61, 0x00, 0x1F, 0x22, 0x5C, 0x7F, 0x80, 0xFF, 0x7A] none :=
  ⟨by decide,
   (C3_strict_accepts_encoder [0x61, 0x00, 0x1F, 0x22, 0x5C, 0x7F, 0x80, 0xFF, 0x7A]
      (by decide)).1⟩

/-- C4: for every input without a backslash byte, `Nginx` returns no error and
the input itself. -/
theorem C4_no_backslash_identity (input : List Nat) (h : 0x5C ∉ input) :
    Nginx input = .ret input none := by
  have := scan_plain false input (fun x hx hxe => h (hxe ▸ hx))
    (fun x _ => passes_false x) [] 0 0
  rw [Nginx, nginx_eq_scan, start, this]
  simp [finish]

/-- The input `safe string` of `TestNginxNoop` has no backslash and is returned
as it is. -/
theorem C4_no_backslash_identity_witness :
    0x5C ∉ bytesOf "safe string" ∧
      Nginx (bytesOf "safe string") = .ret (bytesOf "safe string") none :=
  ⟨by decide, C4_no_backslash_identity (bytesOf "safe string") (by decide)⟩

/-- C5: in strict mode a disallowed raw byte stops decoding with
`ErrNotEscaped` and the output accumulated so far. If `NginxUnsafe p` returns
`q` without error and `b` is a byte the table marks (`b <= 0x1F`, `b = 0x22` or
`b >= 0x7F`), then `NginxUnsafe (p ++ [b] ++ rest)` returns `q` with
`ErrNotEscaped`, whatever `rest` is and also when `p` ends inside an
unfinished escape. -/
theorem C5_strict_disallowed_byte (p q rest : List Nat) (b : Nat)
    (hp : NginxUnsafe p = .ret q none) (hb : b < 256)
    (hd : b ≤ 0x1F ∨ b = 0x22 ∨ 0x7F ≤ b) :
    NginxUnsafe (p ++ [b] ++ rest) = .ret q (some .ErrNotEscaped) := by
  obtain ⟨s, hs, hq⟩ := scan_of_nginx_ok p q true hp
  have hm : mustEscape b = some true := by
    rw [(mustEscape_spec b hb).2]
    simp [hd]
  rw [NginxUnsafe, nginx_eq_scan, List.append_assoc, scan_append_next true _ _ _ _ hs]
  simp [scan, step_disallowed s b hm, finish, hq]

/-- The case of `TestNginxUnsafe`: `foo\x09.bar`, a NUL byte, `\x5C?baz` gives
`foo<TAB>.bar` with `ErrNotEscaped`; and a byte 0xFF inside the unfinished
escape of `a\x4` gives `a` with `ErrNotEscaped`. -/
theorem C5_strict_disallowed_byte_witness :
    NginxUnsafe (bytesOf "foo\\x09.bar") = .ret (bytesOf "foo\t.bar") none ∧
      NginxUnsafe (bytesOf "foo\\x09.bar" ++ [0x00] ++ bytesOf "\\x5C?baz")
        = .ret (bytesOf "foo\t.bar") (some .ErrNotEscaped) ∧
      NginxUnsafe (bytesOf "a\\x4") = .ret (bytesOf "a") none ∧
      NginxUnsafe (bytesOf "a\\x4" ++ [0xFF] ++ bytesOf "1") 
        = .ret (bytesOf "a") (some .ErrNotEscaped) :=
  ⟨by decide,
   C5_strict_disallowed_byte (bytesOf "foo\\x09.bar") (bytesOf "foo\t.bar")
     (bytesOf "\\x5C?baz") 0x00 (by decide) (by decide) (by decide),
   by decide,
   C5_strict_disallowed_byte (bytesOf "a\\x4") (bytesOf "a") (bytesOf "1") 0xFF
     (by decide) (by decide) (by decide)⟩

/-- C6: a backslash not followed by the marker `x` is rejected with
`ErrShortScan` and the decoded prefix is kept. For every sequence of
well-formed tokens (it decodes to one byte per token), every byte `b` other
than `x` and every `rest`, `Nginx` on the tokens followed by backslash, `b` and
`rest` returns the decoded tokens with `ErrShortScan`; so does `NginxUnsafe` when `b` and every byte of the
token part are allowed by the classification table. -/
theorem C6_missing_marker (ts : List Token) (hwf : ∀ t ∈ ts, t.wf) (b : Nat)
    (hb : b ≠ 0x78) (rest : List Nat) :
    Nginx (render ts) = .ret (values ts) none ∧
      Nginx (render ts ++ [0x5C, b] ++ rest) = .ret (values ts) (some .ErrShortScan) ∧
      ((∀ x ∈ render ts, allowed x) → allowed b →
        NginxUnsafe (render ts ++ [0x5C, b] ++ rest)
          = .ret (values ts) (some .ErrShortScan)) :=
  ⟨nginx_render false ts hwf (fun x _ => passes_false x),
   nginx_no_marker false ts hwf (fun x _ => passes_false x) b hb (passes_false b) rest,
   fun ha hab => nginx_no_marker true ts hwf (fun x hx => passes_of_allowed true x (ha x hx))
     b hb (passes_of_allowed true b hab) rest⟩

/-- The second case of `TestNginxMalformed`: `malformed line \2, here` gives
`malformed line ` with `ErrShortScan`, in both modes. -/
theorem C6_missing_marker_witness :
    (∀ t ∈ (bytesOf "malformed line ").map Token.lit, t.wf) ∧ (0x32 : Nat) ≠ 0x78 ∧
      Nginx (bytesOf "malformed line \\2, here")
        = .ret (bytesOf "malformed line ") (some .ErrShortScan) ∧
      NginxUnsafe (bytesOf "malformed line \\2, here")
        = .ret (bytesOf "malformed line ") (some .ErrShortScan) :=
  ⟨by decide, by decide,
   (C6_missing_marker ((bytesOf "malformed line ").map Token.lit) (by decide) 0x32
      (by decide) (bytesOf ", here")).2.1,
   (C6_missing_marker ((bytesOf "malformed line ").map Token.lit) (by decide) 0x32
      (by decide) (bytesOf ", here")).2.2 (by decide) (by decide)⟩

/-- C7: a non-hex byte in either digit position of an escape is rejected with
`ErrShortScan` and the decoded prefix is kept. For every sequence of
well-formed tokens (it decodes to one byte per token), every byte `b` outside
`"0123456789ABCDEF"`, every digit
`H` of it and every `rest`, `Nginx` on the tokens followed by backslash, `x`,
`b`, `rest` and on the tokens followed by backslash, `x`, `H`, `b`, `rest`
returns the decoded tokens, nothing more, with `ErrShortScan`. -/
theorem C7_non_hex_digit (ts : List Token) (hwf : ∀ t ∈ ts, t.wf) (b H : Nat)
    (hb : b ∉ hex) (hH : H ∈ hex) (rest : List Nat) :
    Nginx (render ts) = .ret (values ts) none ∧
      Nginx (render ts ++ [0x5C, 0x78, b] ++ rest)
        = .ret (values ts) (some .ErrShortScan) ∧
      Nginx (render ts ++ [0x5C, 0x78, H, b] ++ rest)
        = .ret (values ts) (some .ErrShortScan) :=
  ⟨nginx_render false ts hwf (fun x _ => passes_false x),
   nginx_no_digit1 false ts hwf (fun x _ => passes_false x) b hb (passes_false b) rest,
   nginx_no_digit2 false ts hwf (fun x _ => passes_false x) H hH b hb (passes_false b) rest⟩

/-- The first case of `TestNginxMalformed`: `malformed line \x2, here` gives
`malformed line ` with `ErrShortScan`; so does `malformed line \x, here`. -/
theorem C7_non_hex_digit_witness :
    (∀ t ∈ (bytesOf "malformed line ").map Token.lit, t.wf) ∧ 0x2C ∉ hex ∧ 0x32 ∈ hex ∧
      Nginx (bytesOf "malformed line \\x, here")
        = .ret (bytesOf "malformed line ") (some .ErrShortScan) ∧
      Nginx (bytesOf "malformed line \\x2, here")
        = .ret (bytesOf "malformed line ") (some .ErrShortScan) :=
  ⟨by decide, by decide, by decide,
   (C7_non_hex_digit ((bytesOf "malformed line ").map Token.lit) (by decide) 0x2C 0x32
      (by decide) (by decide) (bytesOf " here")).2.1,
   (C7_non_hex_digit ((bytesOf "malformed line ").map Token.lit) (by decide) 0x2C 0x32
      (by decide) (by decide) (bytesOf " here")).2.2⟩

/-- C8, as stated, fails: in the input `\2` every byte is one the
classification table allows unescaped (the table allows the backslash), so
the input is strict-mode-valid in the words of the claim, yet both `Nginx` and
`NginxUnsafe` return `ErrShortScan`. -/
theorem C8_stated_counterexample :
    strictValid [0x5C, 0x32] ∧
      Nginx [0x5C, 0x32] = .ret [] (some .ErrShortScan) ∧
      NginxUnsafe [0x5C, 0x32] = .ret [] (some .ErrShortScan) ∧
      ¬ ∃ out, Nginx [0x5C, 0x32] = .ret out none ∧ NginxUnsafe [0x5C, 0x32] = .ret out none := by
  refine ⟨by decide, by decide, by decide, ?_⟩
  rintro ⟨out, h, _⟩
  have e : Nginx [0x5C, 0x32] = .ret [] (some .ErrShortScan) := by decide
  rw [e] at h
  cases h

/-- C8, amended: for every input in which every byte is either part of a
complete `\xHH` escape or a byte other than backslash that the classification
table allows unescaped, `Nginx` and `NginxUnsafe` produce identical output and
neither returns an error. -/
theorem C8_strict_valid_agree (input : List Nat) (h : strictValidNoStray input) :
    ∃ out, Nginx input = .ret out none ∧ NginxUnsafe input = .ret out none := by
  obtain ⟨ts, h1, h2, h3⟩ := tokens_of_strictValidNoStray input.length input (le_refl _) h
  subst h2
  exact ⟨values ts, nginx_render false ts h1 (fun x _ => passes_false x),
    nginx_render true ts h1 (fun x hx => passes_of_allowed true x (h3 x hx))⟩

/-- The input `foo\x09.bar\x5C?baz` of `TestNginx` is strict-mode-valid and
both modes decode it to `foo<TAB>.bar\?baz`. -/
theorem C8_strict_valid_agree_witness :
    strictValidNoStray (bytesOf "foo\\x09.bar\\x5C?baz") ∧
      ∃ out, Nginx (bytesOf "foo\\x09.bar\\x5C?baz") = .ret out none ∧
        NginxUnsafe (bytesOf "foo\\x09.bar\\x5C?baz") = .ret out none :=
  ⟨by decide, C8_strict_valid_agree (bytesOf "foo\\x09.bar\\x5C?baz") (by decide)⟩

set_option maxRecDepth 100000 in
/-- C9: for a byte `b`, the index `b>>5` is within the 8 entries of `escape`,
and the test `(escape[b>>5] & (1 << (b & 0x1f))) > 0` is true exactly when
`b <= 0x1F`, `b = 0x22` or `b >= 0x7F`, and false for every other byte: the
backslash 0x5C and the bytes 0x20-0x21, 0x23-0x5B and 0x5D-0x7E. -/
theorem C9_classification_table (b : Nat) (hb : b < 256) :
    escape.length = 8 ∧ b >>> 5 < escape.length ∧
      (mustEscape b = some true ↔ (b ≤ 0x1F ∨ b = 0x22 ∨ 0x7F ≤ b)) ∧
      (mustEscape b = some false ↔ ¬ (b ≤ 0x1F ∨ b = 0x22 ∨ 0x7F ≤ b)) ∧
      (b = 0x5C ∨ (0x20 ≤ b ∧ b ≤ 0x21) ∨ (0x23 ≤ b ∧ b ≤ 0x5B) ∨ (0x5D ≤ b ∧ b ≤ 0x7E) →
        mustEscape b = some false) := by
  revert b
  decide

/-- The backslash is a byte value, and the table does not mark it. -/
theorem C9_classification_table_witness :
    (0x5C : Nat) < 256 ∧ mustEscape 0x5C = some false :=
  ⟨by decide, (C9_classification_table 0x5C (by decide)).2.2.2.2 (Or.inl rfl)⟩

/-- C10: no input makes the decoder panic. For every sequence of bytes and
both modes, `nginx` returns an output with no error, `ErrShortScan` or
`ErrNotEscaped`; at every point of the scan the digit counter `seen` is 0, 1
or 2, and at every byte the table index `b>>5` is in range and the iteration
does not panic (neither out of range nor `unreachable`). -/
theorem C10_no_panic (input : List Nat) (v : Bool) (hb : ∀ b ∈ input, b < 256) :
    (∃ out err, nginx input v = .ret out err ∧
        (err = none ∨ err = some .ErrShortScan ∨ err = some .ErrNotEscaped)) ∧
      (∀ p rest s, input = p ++ rest → scan v start p = .next s → s.seen ≤ 2) ∧
      (∀ p b rest s, input = p ++ b :: rest → scan v start p = .next s →
        b >>> 5 < escape.length ∧ ∀ q, step v s b ≠ .panic q) := by
  have h0 : start.seen ≤ 2 := by decide
  refine ⟨?_, ?_, ?_⟩
  · rw [nginx_eq_scan]
    cases hs : scan v start input with
    | next s => exact ⟨s.out, none, rfl, Or.inl rfl⟩
    | ret out err =>
      refine ⟨out, some err, rfl, ?_⟩
      cases err
      · exact Or.inr (Or.inl rfl)
      · exact Or.inr (Or.inr rfl)
    | panic q => exact absurd hs (scan_no_panic v input start h0 hb q)
  · intro p rest s _ hs
    exact scan_seen v p start s h0 hs
  · intro p b rest s hi hs
    have hb' : b < 256 := hb b (by rw [hi]; simp)
    exact ⟨(mustEscape_spec b hb').1,
      fun q => step_no_panic v s b (scan_seen v p start s h0 hs) hb' q⟩

/-- Strict mode on `a\x4`, 0xFF: the call returns `a` with `ErrNotEscaped`. -/
theorem C10_no_panic_witness :
    (∀ b ∈ [0x61, 0x5C, 0x78, 0x34, 0xFF], b < 256) ∧
      ∃ out err, nginx [0x61, 0x5C, 0x78, 0x34, 0xFF] true = .ret out err ∧
        (err = none ∨ err = some .ErrShortScan ∨ err = some .ErrNotEscaped) :=
  ⟨by decide, (C10_no_panic [0x61, 0x5C, 0x78, 0x34, 0xFF] true (by decide)).1⟩

/-- C11: for every input and both modes, `Nginx` and `NginxUnsafe`, the call
returns, with or without an error, an output whose length is at most the
length of the input. -/
theorem C11_output_length (input : List Nat) (hb : ∀ b ∈ input, b < 256) :
    (∃ out err, Nginx input = .ret out err ∧ out.length ≤ input.length) ∧
      (∃ out err, NginxUnsafe input = .ret out err ∧ out.length ≤ input.length) :=
  ⟨nginx_length input false hb, nginx_length input true hb⟩

/-- On `foo\x09.bar\x5C?baz` followed by a NUL byte both modes return an
output no longer than the 20 bytes of the input. -/
theorem C11_output_length_witness :
    (∀ b ∈ bytesOf "foo\\x09.bar\\x5C?baz" ++ [0x00], b < 256) ∧
      (∃ out err, Nginx (bytesOf "foo\\x09.bar\\x5C?baz" ++ [0x00]) = .ret out err ∧
        out.length ≤ (bytesOf "foo\\x09.bar\\x5C?baz" ++ [0x00]).length) ∧
      (∃ out err, NginxUnsafe (bytesOf "foo\\x09.bar\\x5C?baz" ++ [0x00]) = .ret out err ∧
        out.length ≤ (bytesOf "foo\\x09.bar\\x5C?baz" ++ [0x00]).length) :=
  ⟨by decide, C11_output_length (bytesOf "foo\\x09.bar\\x5C?baz" ++ [0x00]) (by decide)⟩

/-- C12: for the empty input, both `Nginx` and `NginxUnsafe` return an empty
output and no error. -/
theorem C12_empty_input : Nginx [] = .ret [] none ∧ NginxUnsafe [] = .ret [] none :=
  ⟨rfl, rfl⟩

/-- C13: `ErrNotEscaped` is a strict-mode-only error: for every input, `Nginx`
returns, and its error is none or `ErrShortScan`, never `ErrNotEscaped`. -/
theorem C13_permissive_errors (input : List Nat) :
    ∃ out err, Nginx input = .ret out err ∧ (err = none ∨ err = some .ErrShortScan) ∧
      err ≠ some .ErrNotEscaped := by
  rw [Nginx, nginx_eq_scan]
  rcases scan_false_cases input start (by decide) with ⟨s, hs⟩ | ⟨out, hs⟩
  · exact ⟨s.out, none, by rw [hs]; rfl, Or.inl rfl, by simp⟩
  · exact ⟨out, some .ErrShortScan, by rw [hs]; rfl, Or.inr rfl, by simp⟩

/-- C14: idempotence on backslash-free input. For every input `x` without a
backslash byte, `Nginx x` succeeds, `Nginx` on its output succeeds, and the
two outputs are equal. -/
theorem C14_idempotent_no_backslash (x : List Nat) (h : 0x5C ∉ x) :
    ∃ y z, Nginx x = .ret y none ∧ Nginx y = .ret z none ∧ z = y :=
  ⟨x, x, Nginx_plain x h, Nginx_plain x h, rfl⟩

/-- The input `safe string` has no backslash; decoding it once and decoding
the result again give the same bytes. -/
theorem C14_idempotent_no_backslash_witness :
    0x5C ∉ bytesOf "safe string" ∧
      ∃ y z, Nginx (bytesOf "safe string") = .ret y none ∧ Nginx y = .ret z none ∧ z = y :=
  ⟨by decide, C14_idempotent_no_backslash (bytesOf "safe string") (by decide)⟩

/-- C15: an escape cut off by the end of the input is dropped silently. For
every sequence of well-formed tokens (it decodes to one byte per token) and
every digit `H` of `"0123456789ABCDEF"`, `Nginx` on the tokens followed by
backslash, by backslash and `x`, or by backslash, `x` and `H` returns the
decoded tokens and no error. -/
theorem C15_cut_escape_dropped (ts : List Token) (hwf : ∀ t ∈ ts, t.wf) (H : Nat)
    (hH : H ∈ hex) :
    Nginx (render ts) = .ret (values ts) none ∧
      Nginx (render ts ++ [0x5C]) = .ret (values ts) none ∧
      Nginx (render ts ++ [0x5C, 0x78]) = .ret (values ts) none ∧
      Nginx (render ts ++ [0x5C, 0x78, H]) = .ret (values ts) none :=
  ⟨nginx_render false ts hwf (fun x _ => passes_false x),
   nginx_cut false ts hwf (fun x _ => passes_false x) H hH⟩

/-- The inputs `a\x41\`, `a\x41\x` and `a\x41\x2` all decode to `aA` without
error. -/
theorem C15_cut_escape_dropped_witness :
    (∀ t ∈ [Token.lit 0x61, Token.esc 0x34 0x31], t.wf) ∧ 0x32 ∈ hex ∧
      Nginx (bytesOf "a\\x41") = .ret (bytesOf "aA") none ∧
      Nginx (bytesOf "a\\x41\\") = .ret (bytesOf "aA") none ∧
      Nginx (bytesOf "a\\x41\\x") = .ret (bytesOf "aA") none ∧
      Nginx (bytesOf "a\\x41\\x2") = .ret (bytesOf "aA") none :=
  ⟨by decide, by decide,
   C15_cut_escape_dropped [Token.lit 0x61, Token.esc 0x34 0x31] (by decide) 0x32 (by decide)⟩

/-- C16: the permissive fast path is a pure optimisation. For every input,
`nginx(input, false)` returns the same output and the same error as the
variant of `nginx` without the no-backslash shortcut. -/
theorem C16_fast_path_pure (input : List Nat) :
    nginx input false = nginxNoShortcut input false := by
  rw [nginx_eq_scan]
  unfold nginxNoShortcut
  split_ifs with h
  · have : input = [] := List.length_eq_zero.mp h
    subst this
    rfl
  · rfl

/-- C17: strict mode differs from permissive mode only on disallowed bytes.
For every input whose bytes are all in 0x20-0x7E and not 0x22, `Nginx` and
`NginxUnsafe` return the same output and the same error, which is none or
`ErrShortScan`. -/
theorem C17_modes_agree_on_allowed (input : List Nat)
    (h : ∀ b ∈ input, 0x20 ≤ b ∧ b ≤ 0x7E ∧ b ≠ 0x22) :
    ∃ out err, Nginx input = .ret out err ∧ NginxUnsafe input = .ret out err ∧
      (err = none ∨ err = some .ErrShortScan) := by
  have ha : ∀ b ∈ input, allowed b := fun b hb => allowed_of_printable b (h b hb)
  rw [Nginx, NginxUnsafe, nginx_eq_scan, nginx_eq_scan, scan_allowed_eq input ha start]
  rcases scan_false_cases input start (by decide) with ⟨s, hs⟩ | ⟨out, hs⟩
  · exact ⟨s.out, none, by rw [hs]; rfl, by rw [hs]; rfl, Or.inl rfl⟩
  · exact ⟨out, some .ErrShortScan, by rw [hs]; rfl, by rw [hs]; rfl, Or.inr rfl⟩

/-- On `malformed line \2, here`, all of whose bytes are allowed, both modes
return the same output with the same error. -/
theorem C17_modes_agree_on_allowed_witness :
    (∀ b ∈ bytesOf "malformed line \\2, here", 0x20 ≤ b ∧ b ≤ 0x7E ∧ b ≠ 0x22) ∧
      ∃ out err, Nginx (bytesOf "malformed line \\2, here") = .ret out err ∧
        NginxUnsafe (bytesOf "malformed line \\2, here") = .ret out err ∧
        (err = none ∨ err = some .ErrShortScan) :=
  ⟨by decide, C17_modes_agree_on_allowed (bytesOf "malformed line \\2, here") (by decide)⟩

/-- C18: errors are sticky under extension. In each mode, if the decoder
returns output `q` with an error `e` on `a`, it returns the same output `q`
with the same error `e` on `a ++ b`, for every `b`. -/
theorem C18_errors_sticky (v : Bool) (a b q : List Nat) (e : Error)
    (h : nginx a v = .ret q (some e)) : nginx (a ++ b) v = .ret q (some e) := by
  rw [nginx_eq_scan] at h
  rw [nginx_eq_scan, scan_append]
  cases hs : scan v start a with
  | next s =>
    rw [hs] at h
    simp [finish] at h
  | ret out err =>
    rw [hs] at h
    exact h
  | panic p =>
    rw [hs] at h
    simp [finish] at h

/-- In both modes `ab\2` gives `ab` with `ErrShortScan`, and so does `ab\2`
followed by `\x41` and a NUL byte. -/
theorem C18_errors_sticky_witness :
    Nginx (bytesOf "ab\\2") = .ret (bytesOf "ab") (some .ErrShortScan) ∧
      Nginx (bytesOf "ab\\2" ++ (bytesOf "\\x41" ++ [0x00]))
        = .ret (bytesOf "ab") (some .ErrShortScan) ∧
      NginxUnsafe (bytesOf "ab\\2") = .ret (bytesOf "ab") (some .ErrShortScan) ∧
      NginxUnsafe (bytesOf "ab\\2" ++ (bytesOf "\\x41" ++ [0x00]))
        = .ret (bytesOf "ab") (some .ErrShortScan) :=
  ⟨by decide,
   C18_errors_sticky false (bytesOf "ab\\2") (bytesOf "\\x41" ++ [0x00]) (bytesOf "ab")
     .ErrShortScan (by decide),
   by decide,
   C18_errors_sticky true (bytesOf "ab\\2") (bytesOf "\\x41" ++ [0x00]) (bytesOf "ab")
     .ErrShortScan (by decide)⟩

/-- C19: decoding is prefix-monotone. In each mode and for all byte sequences
`a` and `b`, the calls on `a` and on `a ++ b` return, and the output for `a`
is a prefix of the output for `a ++ b`, whichever of the two returns an
error. -/
theorem C19_prefix_monotone (a b : List Nat) (hb : ∀ x ∈ a ++ b, x < 256) :
    (∃ qa ea qab eab, Nginx a = .ret qa ea ∧ Nginx (a ++ b) = .ret qab eab ∧ qa <+: qab) ∧
      (∃ qa ea qab eab, NginxUnsafe a = .ret qa ea ∧ NginxUnsafe (a ++ b) = .ret qab eab ∧
        qa <+: qab) :=
  ⟨nginx_monotone false a b hb, nginx_monotone true a b hb⟩

/-- The input `ab\x4` ends inside an escape and `1c`, 0xFF, `d` completes it:
in both modes the output of the first is a prefix of the output of the
whole. -/
theorem C19_prefix_monotone_witness :
    (∀ x ∈ bytesOf "ab\\x4" ++ (bytesOf "1c" ++ [0xFF, 0x64]), x < 256) ∧
      (∃ qa ea qab eab, Nginx (bytesOf "ab\\x4") = .ret qa ea ∧
        Nginx (bytesOf "ab\\x4" ++ (bytesOf "1c" ++ [0xFF, 0x64])) = .ret qab eab ∧
        qa <+: qab) ∧
      (∃ qa ea qab eab, NginxUnsafe (bytesOf "ab\\x4") = .ret qa ea ∧
        NginxUnsafe (bytesOf "ab\\x4" ++ (bytesOf "1c" ++ [0xFF, 0x64])) = .ret qab eab ∧
        qa <+: qab) :=
  ⟨by decide,
   C19_prefix_monotone (bytesOf "ab\\x4") (bytesOf "1c" ++ [0xFF, 0x64]) (by decide)⟩

/-- C20: decoding distributes over concatenation at token boundaries. In each
mode, if `a` is a sequence of well-formed tokens on which the decoder returns
`x` without error and the decoder returns `y` with error `e` (or none) on `b`,
then on `a ++ b` it returns `x ++ y` with `e`. -/
theorem C20_distributes_at_tokens (v : Bool) (ts : List Token) (hwf : ∀ t ∈ ts, t.wf)
    (b x y : List Nat) (e : Option Error) (ha : nginx (render ts) v = .ret x none)
    (hb : nginx b v = .ret y e) : nginx (render ts ++ b) v = .ret (x ++ y) e := by
  obtain ⟨s, hs, hx⟩ := scan_of_nginx_ok (render ts) x v ha
  have hp := scan_next_passes v (render ts) start s hs
  obtain ⟨c', n', h⟩ := scan_render v ts hwf hp [] 0 0
  have hv : values ts = x := by
    rw [start, h] at hs
    simp only [Step.next.injEq] at hs
    rw [← hx, ← hs]
    simp
  rw [nginx_eq_scan] at hb
  rw [nginx_eq_scan, start, scan_append_next v _ _ _ _ h, List.nil_append, hv, scan_idle]
  have := scan_shift v x b [] false 0 0 y e hb
  simpa using this

/-- In strict mode `a\x41` gives `aA`, and `b\2` gives `b` with
`ErrShortScan`; together they give `aAb` with `ErrShortScan`. -/
theorem C20_distributes_at_tokens_witness :
    (∀ t ∈ [Token.lit 0x61, Token.esc 0x34 0x31], t.wf) ∧
      NginxUnsafe (bytesOf "a\\x41") = .ret (bytesOf "aA") none ∧
      NginxUnsafe (bytesOf "b\\2") = .ret (bytesOf "b") (some .ErrShortScan) ∧
      NginxUnsafe (bytesOf "a\\x41" ++ bytesOf "b\\2")
        = .ret (bytesOf "aA" ++ bytesOf "b") (some .ErrShortScan) :=
  ⟨by decide, by decide, by decide,
   C20_distributes_at_tokens true [Token.lit 0x61, Token.esc 0x34 0x31] (by decide)
     (bytesOf "b\\2") (bytesOf "aA") (bytesOf "b") (some .ErrShortScan) (by decide)
     (by decide)⟩

end Unescape
